import Mathlib

/-!
# Verification of the `py-munkres` rectangular assignment solver

Shallow embedding of `src/pymunkres/munkres.py` (the Hungarian / Kuhn–Munkres
algorithm with row/column potentials, augmenting-path search, dual updates and
a complementary-slackness optimality certifier).

Python floats are modelled by `ℚ`; every claim about numeric behaviour is
therefore settled for finite inputs (no NaN, no ±∞), which is exactly the
hypothesis the corresponding spec sentences carry.  The `isnan` sanitization
branches of the source are consequently dead in the embedding.  Python's
unbounded `while` loop and unbounded recursion are modelled with explicit
fuel; running out of fuel behaves exactly like the source's defensive
`break` (stop retrying this row, keep the current state), so every invariant
statement below is fuel-independent.
-/

/- Batteries marks the `Rat` field operations irreducible; unseal them so
concrete runs of the solver evaluate by `decide`/`rfl`. -/
unseal Rat.add Rat.sub Rat.mul Rat.inv Rat.ofScientific

set_option maxRecDepth 100000
set_option maxHeartbeats 2000000

namespace PyMunkres

/-- `__EPS = 1e-9`, the floating point tolerance of the module. -/
def EPS : ℚ := 1 / 1000000000

/-- Minimum of a list, Python's `min` on a possibly empty list with an
explicit default (the source writes `min(lst or [0])`, and its other `min`
calls are over provably nonempty lists). -/
def minList (l : List ℚ) (dflt : ℚ) : ℚ :=
  match l with
  | [] => dflt
  | x :: xs => xs.foldl min x

/-- `__reduced_cost(cost_matrix, u, v, i, j, N, M, pad_cost)`:
`cost_matrix[i][j] - u[i] - v[j]` on real cells, `pad_cost - u[i] - v[j]`
on virtual padding cells. -/
def reducedCost (cm : List (List ℚ)) (u v : List ℚ) (i j : Nat)
    (N M : Nat) (pad : ℚ) : ℚ :=
  if i < N ∧ j < M then (cm.getD i []).getD j 0 - u.getD i 0 - v.getD j 0
  else pad - u.getD i 0 - v.getD j 0

/-- Potentials `u`: for each padded row `i < N`,
`min(cost_matrix[i][j] if j < M else pad_cost for j in range(PAD_M))`;
for padding rows `i ≥ N` directly `pad_cost`. -/
def initU (cm : List (List ℚ)) (N M PADN PADM : Nat) (pad : ℚ) : List ℚ :=
  (List.range PADN).map (fun i =>
    if i < N then
      minList ((List.range PADM).map
        (fun j => if j < M then (cm.getD i []).getD j 0 else pad)) 0
    else pad)

/-- Potentials `v`: for each padded column `j`, the minimum over padded rows
`i` of `cost_matrix[i][j] - u[i]` (real cells) or
`pad_cost - (u[i] if i < N else pad_cost)` (padding cells).  The source
initializes `col_min = inf` and folds `min` over `range(PAD_N)`; since
`PAD_N ≥ 1` this equals the minimum of the nonempty list of those values. -/
def initV (cm : List (List ℚ)) (u : List ℚ) (N M PADN PADM : Nat)
    (pad : ℚ) : List ℚ :=
  (List.range PADM).map (fun j =>
    minList ((List.range PADN).map (fun i =>
      if i < N ∧ j < M then (cm.getD i []).getD j 0 - u.getD i 0
      else pad - (if i < N then u.getD i 0 else pad))) 0)

/-- Result of `__search_augmented_path`: the (partial or augmenting) path,
the `path_found` flag, and the visited sets `S` (rows) and `T` (columns),
which the Python version mutates in place. -/
abbrev SearchRes : Type := List (Nat × Nat) × Bool × List Nat × List Nat

/-- Python's `x in S` for an `int` drawn from the inversion vector against a
set of (nonnegative) row indices. -/
def memRow (x : Int) (S : List Nat) : Bool := 0 ≤ x && x.toNat ∈ S

/-- The `for j in range(PAD_M)` scan of `__search_augmented_path` over the
remaining candidate columns, threading the mutable state (`S`, `T`, and the
`path` variable which survives a failed sub-search until the next candidate
resets it).  `f` is the recursive call at one fuel less. -/
def scanCols (cm : List (List ℚ)) (N M : Nat) (pad : ℚ) (inv : List Int)
    (u v : List ℚ) (f : Nat → List Nat → List Nat → SearchRes) (r : Nat) :
    List Nat → List Nat → List (Nat × Nat) → List Nat → SearchRes
  | S, T, path, [] => (path, false, S, T)
  | S, T, path, j :: rest =>
    if EPS < |reducedCost cm u v r j N M pad| ∨ j ∈ T then
      -- not a zero-reduced-cost candidate (or already visited): skip
      scanCols cm N M pad inv u v f r S T path rest
    else
      if inv.getD j (-1) = -1 then
        -- free column: augmenting path found
        ([(r, j)], true, S, T)
      else if memRow (inv.getD j (-1)) S then
        -- the occupying row is already visited: the edge closes a cycle
        ([], false, S, T)
      else
        let T' := T.insert j
        let S' := S.insert (inv.getD j (-1)).toNat
        let res := f (inv.getD j (-1)).toNat S' T'
        if res.2.1 then ((r, j) :: res.1, true, res.2.2.1, res.2.2.2)
        else scanCols cm N M pad inv u v f r res.2.2.1 res.2.2.2
          ((r, j) :: res.1) rest

/-- `__search_augmented_path(row_i, …, S, T)`.  The Python recursion depth is
bounded by the number of rows (each nested call first adds a fresh row to
`S`); `fuel` makes that bound explicit, and the caller passes `PAD_N + 1`. -/
def searchAugPath (cm : List (List ℚ)) (N M PADM : Nat) (pad : ℚ)
    (inv : List Int) (u v : List ℚ) :
    Nat → Nat → List Nat → List Nat → SearchRes
  | 0, _, S, T => ([], false, S, T)
  | fuel + 1, r, S, T =>
    scanCols cm N M pad inv u v (searchAugPath cm N M PADM pad inv u v fuel)
      r S T [] (List.range PADM)

/-- `delta = min([reduced_cost(row, col) for row in S for col in range(PAD_M)
if col not in T] or [0])`. -/
def deltaCalc (cm : List (List ℚ)) (u v : List ℚ) (N M PADM : Nat)
    (pad : ℚ) (S T : List Nat) : ℚ :=
  minList (S.flatMap (fun row =>
    ((List.range PADM).filter (fun col => col ∉ T)).map
      (fun col => reducedCost cm u v row col N M pad))) 0

/-- `u[row_i] = u_i + delta if row_i in S else u_i` for every row. -/
def updateU (u : List ℚ) (delta : ℚ) (S : List Nat) : List ℚ :=
  u.enum.map (fun p => if p.1 ∈ S then p.2 + delta else p.2)

/-- `v[col_j] = v_j - delta if col_j in T else v_j` for every column. -/
def updateV (v : List ℚ) (delta : ℚ) (T : List Nat) : List ℚ :=
  v.enum.map (fun p => if p.1 ∈ T then p.2 - delta else p.2)

/-- One edge flip of the assignment tracker: unmatch a currently matched
edge, otherwise match it. -/
def flipEdge : List Int × List Int → Nat × Nat → List Int × List Int
  | (Z, inv), (r, j) =>
    if Z.getD r (-1) = (j : Int) then (Z.set r (-1), inv.set j (-1))
    else (Z.set r (j : Int), inv.set j (r : Int))

/-- `for edge in path: …` — flip every edge of the augmenting path in order. -/
def applyPath (st : List Int × List Int) (path : List (Nat × Nat)) :
    List Int × List Int :=
  path.foldl flipEdge st

/-- The mutable state of one `munkres` call: padded assignments `Z`, padded
inversion vector `inv`, and the potentials `u`, `v`. -/
structure MState where
  Z : List Int
  inv : List Int
  u : List ℚ
  v : List ℚ
deriving DecidableEq

/-- The `while not path_found` retry loop for one row `i`: search; on success
flip the augmenting path; on failure compute `delta`, defensively stop when
`|delta| < EPS`, otherwise update the potentials and retry.  `fuel` bounds
the retries; exhaustion acts exactly like the defensive `break`. -/
def rowStep (cm : List (List ℚ)) (N M PADN PADM : Nat) (pad : ℚ) (i : Nat) :
    Nat → MState → MState
  | 0, st => st
  | fuel + 1, st =>
    let res := searchAugPath cm N M PADM pad st.inv st.u st.v (PADN + 1) i [i] []
    if res.2.1 then
      let ZI := applyPath (st.Z, st.inv) res.1
      { st with Z := ZI.1, inv := ZI.2 }
    else
      let delta := deltaCalc cm st.u st.v N M PADM pad res.2.2.1 res.2.2.2
      if |delta| < EPS then st
      else rowStep cm N M PADN PADM pad i fuel
        { st with
            u := updateU st.u delta res.2.2.1
            v := updateV st.v delta res.2.2.2 }

/-- Retry budget for one row's `while` loop.  For well-posed instances the
Hungarian argument bounds the number of dual updates per row by the padded
dimension; the generous square bound keeps the embedding total while never
being reached on feasible runs (exhaustion behaves like the defensive
`break`). -/
def whileFuel (PADN : Nat) : Nat := PADN * PADN + 2

/-- The whole solver loop of `munkres` after initialization: process every
padded row in order. -/
def munkresCore (cm : List (List ℚ)) (pad : ℚ) : MState :=
  let N := cm.length
  let M := (cm.headD []).length
  let PADN := max N M
  let PADM := PADN
  let u0 := initU cm N M PADN PADM pad
  let v0 := initV cm u0 N M PADN PADM pad
  let st0 : MState :=
    ⟨List.replicate PADN (-1), List.replicate PADM (-1), u0, v0⟩
  (List.range PADN).foldl
    (fun st i => rowStep cm N M PADN PADM pad i (whileFuel PADN) st) st0

/-- The accumulator loop of `__optimality_check` over `enumerate(assignments)`:
skip unmatched rows, accumulate the potential and cost sums, and return
`False` as soon as a matched edge has `|reduced cost| ≥ EPS`; at the end the
sums must agree exactly or within `EPS`. -/
def optCheckLoop (cm : List (List ℚ)) (u v : List ℚ) (N M : Nat) (pad : ℚ) :
    List (Nat × Int) → ℚ → ℚ → ℚ → Bool
  | [], uSum, vSum, costSum =>
    decide (uSum + vSum = costSum) || decide (|costSum - uSum - vSum| < EPS)
  | (i, j) :: rest, uSum, vSum, costSum =>
    if j = -1 then optCheckLoop cm u v N M pad rest uSum vSum costSum
    else
      let uSum' := uSum + u.getD i 0
      let vSum' := vSum + v.getD j.toNat 0
      let costSum' := costSum +
        if i < N ∧ j.toNat < M then (cm.getD i []).getD j.toNat 0 else pad
      if EPS ≤ |reducedCost cm u v i j.toNat N M pad| then false
      else optCheckLoop cm u v N M pad rest uSum' vSum' costSum'

/-- `__optimality_check(cost_matrix, assignments, u, v, N, M, pad_cost)` over
the padded assignment vector. -/
def optimalityCheck (cm : List (List ℚ)) (Z : List Int) (u v : List ℚ)
    (N M : Nat) (pad : ℚ) : Bool :=
  optCheckLoop cm u v N M pad Z.enum 0 0 0

/-- `munkres(cost_matrix, pad_cost=0)`.  `none` models a raised
`AssertionError` (empty matrix / empty first row); otherwise the tuple
`(assignments, inversions, is_optimal)` with the padded vectors trimmed to
the caller's `N`/`M` and out-of-range partners mapped to `-1`. -/
def munkres (cm : List (List ℚ)) (pad : ℚ) :
    Option (List Int × List Int × Bool) :=
  if cm.length = 0 then none
  else if (cm.headD []).length = 0 then none
  else if cm.length = 1 ∧ (cm.headD []).length = 1 then some ([0], [0], true)
  else
    some (((munkresCore cm pad).Z.take cm.length).map
        (fun a => if a < (((cm.headD []).length : Nat) : Int) then a else -1),
      ((munkresCore cm pad).inv.take (cm.headD []).length).map
        (fun b => if b < ((cm.length : Nat) : Int) then b else -1),
      optimalityCheck cm (munkresCore cm pad).Z (munkresCore cm pad).u
        (munkresCore cm pad).v cm.length (cm.headD []).length pad)

/-- `make_cost_matrix(workers, jobs, cost_function)`:
`M[i][j] = cost_function(workers[i], jobs[j], i, j)`. -/
def make_cost_matrix {α β : Type} (workers : List α) (jobs : List β)
    (cost_function : α → β → Nat → Nat → ℚ) : List (List ℚ) :=
  workers.enum.map (fun p =>
    jobs.enum.map (fun q => cost_function p.2 q.2 p.1 q.1))

/-! ## Variant of the column scan following the spec's description of cycle
rejection.

Modelled from the spec: §4.3 says that when `inversion[j]`'s row is already
in `S` the edge is rejected by *skipping to the next candidate column*.  The
source instead returns from the whole search at that point.  This definition
realizes the spec's wording so the two behaviours can be compared. -/
def scanColsSkip (cm : List (List ℚ)) (N M : Nat) (pad : ℚ) (inv : List Int)
    (u v : List ℚ) (f : Nat → List Nat → List Nat → SearchRes) (r : Nat) :
    List Nat → List Nat → List (Nat × Nat) → List Nat → SearchRes
  | S, T, path, [] => (path, false, S, T)
  | S, T, path, j :: rest =>
    if EPS < |reducedCost cm u v r j N M pad| ∨ j ∈ T then
      scanColsSkip cm N M pad inv u v f r S T path rest
    else
      if inv.getD j (-1) = -1 then
        ([(r, j)], true, S, T)
      else if memRow (inv.getD j (-1)) S then
        -- spec wording: reject this edge and move on to the next candidate
        scanColsSkip cm N M pad inv u v f r S T [(r, j)] rest
      else
        let T' := T.insert j
        let S' := S.insert (inv.getD j (-1)).toNat
        match f (inv.getD j (-1)).toNat S' T' with
        | (newPath, found, S2, T2) =>
          if found then ((r, j) :: newPath, true, S2, T2)
          else scanColsSkip cm N M pad inv u v f r S2 T2 ((r, j) :: newPath) rest

/-! ## Generic list helpers -/

theorem foldl_min_le_init (xs : List ℚ) (x : ℚ) : xs.foldl min x ≤ x := by
  induction xs generalizing x with
  | nil => exact le_refl x
  | cons y ys ih => exact le_trans (ih (min x y)) (min_le_left x y)

theorem foldl_min_le_mem (xs : List ℚ) (x y : ℚ) (hy : y ∈ xs) :
    xs.foldl min x ≤ y := by
  induction xs generalizing x with
  | nil => cases hy
  | cons z zs ih =>
    rcases List.mem_cons.mp hy with h | h
    · subst h
      exact le_trans (foldl_min_le_init zs (min x y)) (min_le_right x y)
    · exact ih (min x z) h

theorem le_foldl_min (xs : List ℚ) (x c : ℚ) (hx : c ≤ x)
    (h : ∀ y ∈ xs, c ≤ y) : c ≤ xs.foldl min x := by
  induction xs generalizing x with
  | nil => exact hx
  | cons z zs ih =>
    exact ih (min x z) (le_min hx (h z (List.mem_cons_self z zs)))
      (fun y hy => h y (List.mem_cons_of_mem z hy))

theorem foldl_min_mem (xs : List ℚ) (x : ℚ) : xs.foldl min x ∈ x :: xs := by
  induction xs generalizing x with
  | nil => exact List.mem_cons_self x []
  | cons z zs ih =>
    rcases List.mem_cons.mp (ih (min x z)) with h | h
    · rcases min_choice x z with h' | h'
      · exact List.mem_cons.mpr (Or.inl (h.trans h'))
      · exact List.mem_cons.mpr
          (Or.inr (List.mem_cons.mpr (Or.inl (h.trans h'))))
    · exact List.mem_cons.mpr (Or.inr (List.mem_cons_of_mem z h))

theorem minList_le (l : List ℚ) (dflt y : ℚ) (hy : y ∈ l) :
    minList l dflt ≤ y := by
  match l with
  | [] => cases hy
  | x :: xs =>
    rcases List.mem_cons.mp hy with h | h
    · exact h ▸ foldl_min_le_init xs x
    · exact foldl_min_le_mem xs x y h

theorem le_minList (l : List ℚ) (dflt c : ℚ) (hd : c ≤ dflt)
    (h : ∀ y ∈ l, c ≤ y) : c ≤ minList l dflt := by
  match l with
  | [] => exact hd
  | x :: xs =>
    exact le_foldl_min xs x c (h x (List.mem_cons_self x xs))
      (fun y hy => h y (List.mem_cons_of_mem x hy))

theorem minList_mem (l : List ℚ) (dflt : ℚ) (hl : l ≠ []) :
    minList l dflt ∈ l := by
  match l with
  | [] => exact absurd rfl hl
  | x :: xs => exact foldl_min_mem xs x

theorem minList_const (l : List ℚ) (dflt c : ℚ) (hl : l ≠ [])
    (h : ∀ y ∈ l, y = c) : minList l dflt = c := by
  exact h _ (minList_mem l dflt hl)

theorem getD_map_range {α : Type} (f : Nat → α) (n i : Nat) (d : α)
    (h : i < n) : ((List.range n).map f).getD i d = f i := by
  rw [List.getD_eq_getElem?_getD, List.getElem?_map, List.getElem?_range h]
  rfl

theorem getD_map_lt {α β : Type} (f : α → β) (l : List α) (i : Nat)
    (d : β) (d' : α) (h : i < l.length) :
    (l.map f).getD i d = f (l.getD i d') := by
  rw [List.getD_eq_getElem?_getD, List.getElem?_map,
    List.getD_eq_getElem?_getD, List.getElem?_eq_getElem h]
  rfl

theorem getD_take_lt {α : Type} (l : List α) (n i : Nat) (d : α)
    (h : i < n) : (l.take n).getD i d = l.getD i d := by
  rw [List.getD_eq_getElem?_getD, List.getD_eq_getElem?_getD,
    List.getElem?_take, if_pos h]

theorem getD_set_self (l : List Int) (i : Nat) (x d : Int)
    (h : i < l.length) : (l.set i x).getD i d = x := by
  rw [List.getD_eq_getElem?_getD, List.getElem?_set_self']
  simp [List.getElem?_eq_getElem h]

theorem getD_set_other (l : List Int) (i k : Nat) (x d : Int)
    (h : i ≠ k) : (l.set i x).getD k d = l.getD k d := by
  rw [List.getD_eq_getElem?_getD, List.getD_eq_getElem?_getD,
    List.getElem?_set_ne h]

theorem getD_enum_map {α β : Type} (l : List α) (f : Nat × α → β)
    (i : Nat) (d : β) (d' : α) (h : i < l.length) :
    (l.enum.map f).getD i d = f (i, l.getD i d') := by
  rw [List.getD_eq_getElem?_getD, List.getElem?_map, List.getElem?_enum,
    List.getD_eq_getElem?_getD, List.getElem?_eq_getElem h]
  rfl

/-! ## The complementary-slackness certificate (C1)

`csCertificate` is modelled from the spec: §4.6 — every matched edge of the
padded assignment has reduced cost within ε of 0, and the sum of the
potentials restricted to matched rows/columns equals the total cost of the
matching (padded cells contributing the pad cost) within ε. -/

/-- The matched entries of an enumerated assignment vector. -/
def matchedPairs (pairs : List (Nat × Int)) : List (Nat × Int) :=
  pairs.filter (fun p => decide (p.2 ≠ -1))

/-- Total cost of the matched edges, padded cells contributing `pad`. -/
def pairsCost (cm : List (List ℚ)) (N M : Nat) (pad : ℚ)
    (pairs : List (Nat × Int)) : ℚ :=
  ((matchedPairs pairs).map (fun p =>
    if p.1 < N ∧ p.2.toNat < M then (cm.getD p.1 []).getD p.2.toNat 0
    else pad)).sum

/-- Sum of the row potentials restricted to matched rows. -/
def pairsU (u : List ℚ) (pairs : List (Nat × Int)) : ℚ :=
  ((matchedPairs pairs).map (fun p => u.getD p.1 0)).sum

/-- Sum of the column potentials restricted to matched columns. -/
def pairsV (v : List ℚ) (pairs : List (Nat × Int)) : ℚ :=
  ((matchedPairs pairs).map (fun p => v.getD p.2.toNat 0)).sum

/-- The complementary-slackness certificate over the padded assignment `Z`. -/
def csCertificate (cm : List (List ℚ)) (Z : List Int) (u v : List ℚ)
    (N M : Nat) (pad : ℚ) : Prop :=
  (∀ p ∈ Z.enum, p.2 ≠ -1 →
    |reducedCost cm u v p.1 p.2.toNat N M pad| < EPS) ∧
  |pairsCost cm N M pad Z.enum - pairsU u Z.enum - pairsV v Z.enum| < EPS

theorem EPS_pos : (0 : ℚ) < EPS := by norm_num [EPS]

theorem optCheckLoop_iff (cm : List (List ℚ)) (u v : List ℚ) (N M : Nat)
    (pad : ℚ) (pairs : List (Nat × Int)) (uS vS cS : ℚ) :
    optCheckLoop cm u v N M pad pairs uS vS cS = true ↔
    ((∀ p ∈ pairs, p.2 ≠ -1 →
        |reducedCost cm u v p.1 p.2.toNat N M pad| < EPS) ∧
      |(cS + pairsCost cm N M pad pairs) - (uS + pairsU u pairs) -
        (vS + pairsV v pairs)| < EPS) := by
  induction pairs generalizing uS vS cS with
  | nil =>
    simp only [optCheckLoop, List.not_mem_nil, false_implies, implies_true,
      true_and, pairsCost, pairsU, pairsV, matchedPairs, List.filter_nil,
      List.map_nil, List.sum_nil, add_zero, Bool.or_eq_true, decide_eq_true_eq]
    constructor
    · rintro (h | h)
      · rw [show cS - uS - vS = 0 by rw [← h]; ring, abs_zero]
        exact EPS_pos
      · exact h
    · exact fun h => Or.inr h
  | cons p rest ih =>
    obtain ⟨i, j⟩ := p
    by_cases hj : j = -1
    · subst hj
      have hstep : optCheckLoop cm u v N M pad ((i, -1) :: rest) uS vS cS =
          optCheckLoop cm u v N M pad rest uS vS cS := by
        simp [optCheckLoop]
      rw [hstep, ih]
      constructor
      · rintro ⟨h1, h2⟩
        refine ⟨?_, ?_⟩
        · intro q hq hq2
          rcases List.mem_cons.mp hq with h | h
          · exact absurd (congrArg Prod.snd h) (by simpa using hq2)
          · exact h1 q h hq2
        · simpa [pairsCost, pairsU, pairsV, matchedPairs] using h2
      · rintro ⟨h1, h2⟩
        refine ⟨fun q hq => h1 q (List.mem_cons_of_mem _ hq), ?_⟩
        simpa [pairsCost, pairsU, pairsV, matchedPairs] using h2
    · have hcost : pairsCost cm N M pad ((i, j) :: rest) =
          (if i < N ∧ j.toNat < M then (cm.getD i []).getD j.toNat 0
            else pad) + pairsCost cm N M pad rest := by
        simp [pairsCost, matchedPairs, List.filter_cons, hj]
      have hu : pairsU u ((i, j) :: rest) =
          u.getD i 0 + pairsU u rest := by
        simp [pairsU, matchedPairs, List.filter_cons, hj]
      have hv : pairsV v ((i, j) :: rest) =
          v.getD j.toNat 0 + pairsV v rest := by
        simp [pairsV, matchedPairs, List.filter_cons, hj]
      simp only [optCheckLoop, if_neg hj]
      by_cases hrc : EPS ≤ |reducedCost cm u v i j.toNat N M pad|
      · rw [if_pos hrc]
        constructor
        · intro h
          exact absurd h Bool.false_ne_true
        · rintro ⟨h1, _⟩
          exact absurd (h1 (i, j) (List.mem_cons_self _ _) hj)
            (not_lt.mpr hrc)
      · rw [if_neg hrc, ih, hcost, hu, hv]
        constructor
        · rintro ⟨h1, h2⟩
          refine ⟨?_, ?_⟩
          · intro q hq hq2
            rcases List.mem_cons.mp hq with h | h
            · subst h
              exact not_le.mp hrc
            · exact h1 q h hq2
          · convert h2 using 2
            ring
        · rintro ⟨h1, h2⟩
          refine ⟨fun q hq => h1 q (List.mem_cons_of_mem _ hq), ?_⟩
          convert h2 using 2
          ring

theorem optimalityCheck_iff (cm : List (List ℚ)) (Z : List Int)
    (u v : List ℚ) (N M : Nat) (pad : ℚ) :
    optimalityCheck cm Z u v N M pad = true ↔
    csCertificate cm Z u v N M pad := by
  unfold optimalityCheck csCertificate
  rw [optCheckLoop_iff]
  simp only [zero_add]

/-! ## Dual feasibility (C5, C6, C9) -/

/-- `cost(i,j)` of the padded square instance: the matrix entry on real
cells, the pad cost on virtual cells.  Modelled from the spec: §3/§4.1, the
single padded-cost accessor the invariants are phrased with. -/
def cellCost (cm : List (List ℚ)) (N M : Nat) (pad : ℚ) (i j : Nat) : ℚ :=
  if i < N ∧ j < M then (cm.getD i []).getD j 0 else pad

/-- Dual feasibility over the padded `PADN × PADM` square. -/
@[reducible]
def DualFeasible (cm : List (List ℚ)) (u v : List ℚ) (N M PADN PADM : Nat)
    (pad : ℚ) : Prop :=
  ∀ i, i < PADN → ∀ j, j < PADM → 0 ≤ reducedCost cm u v i j N M pad

theorem reducedCost_eq_cellCost (cm : List (List ℚ)) (u v : List ℚ)
    (i j N M : Nat) (pad : ℚ) :
    reducedCost cm u v i j N M pad =
      cellCost cm N M pad i j - u.getD i 0 - v.getD j 0 := by
  unfold reducedCost cellCost
  by_cases h : i < N ∧ j < M <;> simp [h]

theorem initU_getD_lt (cm : List (List ℚ)) (N M PADN PADM : Nat) (pad : ℚ)
    (i : Nat) (hi : i < PADN) (hiN : i < N) :
    (initU cm N M PADN PADM pad).getD i 0 =
      minList ((List.range PADM).map
        (fun j => if j < M then (cm.getD i []).getD j 0 else pad)) 0 := by
  unfold initU
  rw [getD_map_range _ _ _ _ hi, if_pos hiN]

theorem initU_getD_pad (cm : List (List ℚ)) (N M PADN PADM : Nat) (pad : ℚ)
    (i : Nat) (hi : i < PADN) (hiN : ¬i < N) :
    (initU cm N M PADN PADM pad).getD i 0 = pad := by
  unfold initU
  rw [getD_map_range _ _ _ _ hi, if_neg hiN]

theorem initV_getD (cm : List (List ℚ)) (u : List ℚ) (N M PADN PADM : Nat)
    (pad : ℚ) (j : Nat) (hj : j < PADM) :
    (initV cm u N M PADN PADM pad).getD j 0 =
      minList ((List.range PADN).map (fun i =>
        if i < N ∧ j < M then (cm.getD i []).getD j 0 - u.getD i 0
        else pad - (if i < N then u.getD i 0 else pad))) 0 := by
  unfold initV
  rw [getD_map_range _ _ _ _ hj]

/-- The `v` entry fed to the minimum at row `i` rewrites, for the initial
potentials, to `cellCost i j - u[i]`. -/
theorem initV_entry_eq (cm : List (List ℚ)) (N M PADN PADM : Nat) (pad : ℚ)
    (i j : Nat) (hi : i < PADN) :
    (if i < N ∧ j < M then
        (cm.getD i []).getD j 0 - (initU cm N M PADN PADM pad).getD i 0
      else pad - (if i < N then (initU cm N M PADN PADM pad).getD i 0
        else pad)) =
      cellCost cm N M pad i j - (initU cm N M PADN PADM pad).getD i 0 := by
  by_cases hN : i < N
  · by_cases hM : j < M
    · simp [cellCost, hN, hM]
    · simp [cellCost, hN, hM]
  · rw [initU_getD_pad cm N M PADN PADM pad i hi hN]
    simp [cellCost, hN]

/-- After initialization every reduced cost of the padded square is
nonnegative. -/
theorem init_feasible (cm : List (List ℚ)) (N M PADN PADM : Nat) (pad : ℚ) :
    DualFeasible cm (initU cm N M PADN PADM pad)
      (initV cm (initU cm N M PADN PADM pad) N M PADN PADM pad)
      N M PADN PADM pad := by
  intro i hi j hj
  set u := initU cm N M PADN PADM pad with hu
  rw [reducedCost_eq_cellCost, sub_nonneg]
  rw [initV_getD cm u N M PADN PADM pad j hj]
  have hmem : cellCost cm N M pad i j - u.getD i 0 ∈
      (List.range PADN).map (fun i' =>
        if i' < N ∧ j < M then (cm.getD i' []).getD j 0 - u.getD i' 0
        else pad - (if i' < N then u.getD i' 0 else pad)) := by
    rw [List.mem_map]
    exact ⟨i, List.mem_range.mpr hi, by rw [hu, initV_entry_eq _ _ _ _ _ _ _ _ hi]⟩
  have := minList_le _ 0 _ hmem
  linarith [this]

/-- Every entry listed in the `delta` minimum is a reduced cost at a visited
row and an unvisited padded column. -/
theorem deltaCalc_le (cm : List (List ℚ)) (u v : List ℚ) (N M PADM : Nat)
    (pad : ℚ) (S T : List Nat) (i j : Nat) (hiS : i ∈ S) (hj : j < PADM)
    (hjT : j ∉ T) :
    deltaCalc cm u v N M PADM pad S T ≤ reducedCost cm u v i j N M pad := by
  apply minList_le
  rw [List.mem_flatMap]
  refine ⟨i, hiS, ?_⟩
  rw [List.mem_map]
  exact ⟨j, List.mem_filter.mpr ⟨List.mem_range.mpr hj, by simpa using hjT⟩,
    rfl⟩

/-- With dual feasibility and visited rows inside the padded square, the
computed `delta` is nonnegative (C9, first part). -/
theorem deltaCalc_nonneg (cm : List (List ℚ)) (u v : List ℚ)
    (N M PADN PADM : Nat) (pad : ℚ) (S T : List Nat)
    (hfeas : DualFeasible cm u v N M PADN PADM pad)
    (hS : ∀ r0 ∈ S, r0 < PADN) :
    0 ≤ deltaCalc cm u v N M PADM pad S T := by
  apply le_minList _ _ _ (le_refl 0)
  intro y hy
  rw [List.mem_flatMap] at hy
  obtain ⟨r0, hrS, hy⟩ := hy
  rw [List.mem_map] at hy
  obtain ⟨c, hc, rfl⟩ := hy
  have hc' := List.mem_filter.mp hc
  exact hfeas r0 (hS r0 hrS) c (List.mem_range.mp hc'.1)

theorem updateU_getD (u : List ℚ) (delta : ℚ) (S : List Nat) (i : Nat)
    (hi : i < u.length) :
    (updateU u delta S).getD i 0 =
      if i ∈ S then u.getD i 0 + delta else u.getD i 0 := by
  unfold updateU
  rw [getD_enum_map u _ i 0 0 hi]

theorem updateV_getD (v : List ℚ) (delta : ℚ) (T : List Nat) (j : Nat)
    (hj : j < v.length) :
    (updateV v delta T).getD j 0 =
      if j ∈ T then v.getD j 0 - delta else v.getD j 0 := by
  unfold updateV
  rw [getD_enum_map v _ j 0 0 hj]

/-- A potential update of the source (raise `u` on `S`, lower `v` on `T` by
the computed `delta`) preserves dual feasibility (C5, preservation part). -/
theorem update_feasible (cm : List (List ℚ)) (u v : List ℚ)
    (N M PADN PADM : Nat) (pad : ℚ) (S T : List Nat)
    (hfeas : DualFeasible cm u v N M PADN PADM pad)
    (hS : ∀ r0 ∈ S, r0 < PADN)
    (hu : u.length = PADN) (hv : v.length = PADM) :
    DualFeasible cm
      (updateU u (deltaCalc cm u v N M PADM pad S T) S)
      (updateV v (deltaCalc cm u v N M PADM pad S T) T)
      N M PADN PADM pad := by
  intro i hi j hj
  have hdelta0 : 0 ≤ deltaCalc cm u v N M PADM pad S T :=
    deltaCalc_nonneg cm u v N M PADN PADM pad S T hfeas hS
  have hrc := hfeas i hi j hj
  rw [reducedCost_eq_cellCost] at hrc ⊢
  rw [updateU_getD u _ S i (hu ▸ hi), updateV_getD v _ T j (hv ▸ hj)]
  by_cases hiS : i ∈ S
  · by_cases hjT : j ∈ T
    · rw [if_pos hiS, if_pos hjT]
      linarith
    · rw [if_pos hiS, if_neg hjT]
      have := deltaCalc_le cm u v N M PADM pad S T i j hiS hj hjT
      rw [reducedCost_eq_cellCost] at this
      linarith
  · by_cases hjT : j ∈ T
    · rw [if_neg hiS, if_pos hjT]
      linarith
    · rw [if_neg hiS, if_neg hjT]
      linarith

/-! ## The spec's description of the potential initializer (C6) -/

/-- Modelled from the spec: §4.2 — for each padded row `i`,
`u[i] = min over j of cost(i,j)`. -/
def specU (cm : List (List ℚ)) (N M PADN PADM : Nat) (pad : ℚ) : List ℚ :=
  (List.range PADN).map (fun i =>
    minList ((List.range PADM).map (cellCost cm N M pad i)) 0)

/-- Modelled from the spec: §4.2 — for each padded column `j`,
`v[j] = min over i of (cost(i,j) − u[i])`. -/
def specV (cm : List (List ℚ)) (N M PADN PADM : Nat) (pad : ℚ) : List ℚ :=
  (List.range PADM).map (fun j =>
    minList ((List.range PADN).map (fun i =>
      cellCost cm N M pad i j -
        (specU cm N M PADN PADM pad).getD i 0)) 0)

theorem initU_getD_eq_min (cm : List (List ℚ)) (N M PADN PADM : Nat)
    (pad : ℚ) (hPADM : 0 < PADM) (i : Nat) (hi : i < PADN) :
    (initU cm N M PADN PADM pad).getD i 0 =
      minList ((List.range PADM).map (cellCost cm N M pad i)) 0 := by
  by_cases hiN : i < N
  · rw [initU_getD_lt cm N M PADN PADM pad i hi hiN]
    congr 1
    apply List.map_congr_left
    intro j _
    unfold cellCost
    by_cases hjM : j < M
    · rw [if_pos hjM, if_pos ⟨hiN, hjM⟩]
    · rw [if_neg hjM, if_neg (fun h => hjM h.2)]
  · rw [initU_getD_pad cm N M PADN PADM pad i hi hiN]
    refine (minList_const _ 0 pad ?_ ?_).symm
    · intro h
      rw [List.map_eq_nil_iff, List.range_eq_nil] at h
      omega
    · intro y hy
      rw [List.mem_map] at hy
      obtain ⟨j, _, rfl⟩ := hy
      exact if_neg (fun h => hiN h.1)

theorem initU_eq_specU (cm : List (List ℚ)) (N M PADN PADM : Nat) (pad : ℚ)
    (hPADM : 0 < PADM) :
    initU cm N M PADN PADM pad = specU cm N M PADN PADM pad := by
  unfold initU specU
  apply List.map_congr_left
  intro i hi
  have hi' : i < PADN := List.mem_range.mp hi
  have h := initU_getD_eq_min cm N M PADN PADM pad hPADM i hi'
  unfold initU at h
  rwa [getD_map_range _ _ _ _ hi'] at h

theorem specU_getD (cm : List (List ℚ)) (N M PADN PADM : Nat) (pad : ℚ)
    (i : Nat) (hi : i < PADN) :
    (specU cm N M PADN PADM pad).getD i 0 =
      minList ((List.range PADM).map (cellCost cm N M pad i)) 0 := by
  unfold specU
  rw [getD_map_range _ _ _ _ hi]

theorem initV_eq_specV (cm : List (List ℚ)) (N M PADN PADM : Nat) (pad : ℚ)
    (hPADM : 0 < PADM) :
    initV cm (initU cm N M PADN PADM pad) N M PADN PADM pad =
      specV cm N M PADN PADM pad := by
  unfold initV specV
  apply List.map_congr_left
  intro j _
  congr 1
  apply List.map_congr_left
  intro i hi
  rw [initV_entry_eq cm N M PADN PADM pad i j (List.mem_range.mp hi),
    initU_eq_specU cm N M PADN PADM pad hPADM]

/-- Starting from the initial potentials, every padded row has at least one
zero-reduced-cost cell. -/
theorem init_row_zero (cm : List (List ℚ)) (N M PADN PADM : Nat) (pad : ℚ)
    (hPADM : 0 < PADM) (i : Nat) (hi : i < PADN) :
    ∃ j, j < PADM ∧
      reducedCost cm (initU cm N M PADN PADM pad)
        (initV cm (initU cm N M PADN PADM pad) N M PADN PADM pad)
        i j N M pad = 0 := by
  set u := initU cm N M PADN PADM pad with hu
  set v := initV cm u N M PADN PADM pad with hv
  -- the column attaining row i's minimum
  have hrow := initU_getD_eq_min cm N M PADN PADM pad hPADM i hi
  rw [← hu] at hrow
  have hne : ((List.range PADM).map (cellCost cm N M pad i)) ≠ [] := by
    intro h
    rw [List.map_eq_nil_iff, List.range_eq_nil] at h
    omega
  have hmem := minList_mem ((List.range PADM).map (cellCost cm N M pad i))
    0 hne
  rw [← hrow] at hmem
  rw [List.mem_map] at hmem
  obtain ⟨jstar, hjr, hjeq⟩ := hmem
  have hjstar : jstar < PADM := List.mem_range.mp hjr
  refine ⟨jstar, hjstar, ?_⟩
  -- every row's u-potential is below its cell in column jstar
  have hrowmin : ∀ i', i' < PADN →
      u.getD i' 0 ≤ cellCost cm N M pad i' jstar := by
    intro i' hi'
    rw [hu, initU_getD_eq_min cm N M PADN PADM pad hPADM i' hi']
    apply minList_le
    rw [List.mem_map]
    exact ⟨jstar, hjr, rfl⟩
  -- the v entry at jstar is exactly zero
  have hvj : v.getD jstar 0 = 0 := by
    rw [hv, initV_getD cm u N M PADN PADM pad jstar hjstar]
    have hcongr : (List.range PADN).map (fun i' =>
        if i' < N ∧ jstar < M then
          (cm.getD i' []).getD jstar 0 - u.getD i' 0
        else pad - (if i' < N then u.getD i' 0 else pad)) =
        (List.range PADN).map (fun i' =>
          cellCost cm N M pad i' jstar - u.getD i' 0) := by
      apply List.map_congr_left
      intro i' hi'
      rw [hu, initV_entry_eq cm N M PADN PADM pad i' jstar
        (List.mem_range.mp hi')]
    rw [hcongr]
    apply le_antisymm
    · have : cellCost cm N M pad i jstar - u.getD i 0 ∈
          (List.range PADN).map (fun i' =>
            cellCost cm N M pad i' jstar - u.getD i' 0) := by
        rw [List.mem_map]
        exact ⟨i, List.mem_range.mpr hi, rfl⟩
      have hle := minList_le _ 0 _ this
      have : cellCost cm N M pad i jstar - u.getD i 0 = 0 := by
        rw [← hjeq]
        ring
      linarith
    · apply le_minList _ _ _ (le_refl 0)
      intro y hy
      rw [List.mem_map] at hy
      obtain ⟨i', hi', rfl⟩ := hy
      have := hrowmin i' (List.mem_range.mp hi')
      linarith
  rw [reducedCost_eq_cellCost, hvj, ← hjeq]
  ring

/-! ## The matching invariant and augmenting paths (C7) -/

/-- A vector entry is the sentinel `-1` or a valid partner index. -/
def entryOK (bound : Nat) (x : Int) : Prop :=
  x = -1 ∨ (0 ≤ x ∧ x < (bound : Int))

/-- `Z` and `inv` describe the same partial matching: mutually consistent
and with every entry either the sentinel or in range. -/
structure MatchInv (Z inv : List Int) : Prop where
  iff_all : ∀ i, i < Z.length → ∀ j, j < inv.length →
    (Z.getD i (-1) = (j : Int) ↔ inv.getD j (-1) = (i : Int))
  rowOK : ∀ i, i < Z.length → entryOK inv.length (Z.getD i (-1))
  colOK : ∀ j, j < inv.length → entryOK Z.length (inv.getD j (-1))

/-- The alternating-path structure of a successful search result, read
against the inversion vector at search time: each edge `(r0, j)` picks a
column whose occupant (if any) roots the rest of the path, the last column
is free, and later edges never reuse an earlier column. -/
inductive IsAug (inv : List Int) : Nat → List (Nat × Nat) → Prop
  | single {r0 j : Nat} (hj : j < inv.length)
      (hfree : inv.getD j (-1) = -1) : IsAug inv r0 [(r0, j)]
  | cons {r0 j r' : Nat} {rest : List (Nat × Nat)} (hj : j < inv.length)
      (hocc : inv.getD j (-1) = (r' : Int)) (hdist : ∀ e ∈ rest, e.2 ≠ j)
      (htail : IsAug inv r' rest) : IsAug inv r0 ((r0, j) :: rest)

theorem isAug_congr (inv inv' : List Int) (r0 : Nat)
    (path : List (Nat × Nat)) (hlen : inv'.length = inv.length)
    (hsame : ∀ e ∈ path, inv'.getD e.2 (-1) = inv.getD e.2 (-1))
    (h : IsAug inv r0 path) : IsAug inv' r0 path := by
  induction h with
  | single hj hfree =>
    exact IsAug.single (hlen ▸ hj)
      (by rw [hsame _ (List.mem_cons_self _ _)]; exact hfree)
  | cons hj hocc hdist _ ih =>
    exact IsAug.cons (hlen ▸ hj)
      (by rw [hsame _ (List.mem_cons_self _ _)]; exact hocc) hdist
      (ih (fun e he => hsame e (List.mem_cons_of_mem _ he)))

/-- The intermediate state during the edge flips: consistency holds away
from the dangling row `r0`, no column points at `r0`, and all entries stay in
range. -/
structure Dangle (Z inv : List Int) (r0 : Nat) : Prop where
  iff_off : ∀ i, i < Z.length → i ≠ r0 → ∀ j, j < inv.length →
    (Z.getD i (-1) = (j : Int) ↔ inv.getD j (-1) = (i : Int))
  no_point : ∀ j, j < inv.length → inv.getD j (-1) ≠ (r0 : Int)
  rowOK : ∀ i, i < Z.length → entryOK inv.length (Z.getD i (-1))
  colOK : ∀ j, j < inv.length → entryOK Z.length (inv.getD j (-1))
  hr : r0 < Z.length

theorem getD_replicate_sentinel (n k : Nat) :
    (List.replicate n (-1 : Int)).getD k (-1) = -1 := by
  rw [List.getD_eq_getElem?_getD, List.getElem?_replicate]
  by_cases h : k < n <;> simp [h]

/-- Assigning the dangling row `r` to a free column `j` restores the full
matching invariant. -/
theorem dangle_assign_free (Z inv : List Int) (r j : Nat)
    (hd : Dangle Z inv r) (hj : j < inv.length)
    (hfree : inv.getD j (-1) = -1) :
    MatchInv (Z.set r (j : Int)) (inv.set j (r : Int)) := by
  constructor
  · intro i hi j' hj'
    rw [List.length_set] at hi hj'
    rcases eq_or_ne i r with rfl | hir
    · rcases eq_or_ne j' j with rfl | hjj
      · rw [getD_set_self _ _ _ _ hd.hr, getD_set_self _ _ _ _ hj]
        simp
      · rw [getD_set_self _ _ _ _ hd.hr,
          getD_set_other _ _ _ _ _ (Ne.symm hjj)]
        constructor
        · intro h
          have hjj2 : j = j' := by exact_mod_cast h
          exact absurd hjj2 (Ne.symm hjj)
        · intro h
          exact absurd h (hd.no_point j' hj')
    · rcases eq_or_ne j' j with rfl | hjj
      · rw [getD_set_other _ _ _ _ _ (Ne.symm hir),
          getD_set_self _ _ _ _ hj]
        constructor
        · intro h
          have h2 := (hd.iff_off i hi hir j' hj').mp h
          rw [hfree] at h2
          omega
        · intro h
          have h2 : r = i := by exact_mod_cast h
          exact absurd h2.symm hir
      · rw [getD_set_other _ _ _ _ _ (Ne.symm hir),
          getD_set_other _ _ _ _ _ (Ne.symm hjj)]
        exact hd.iff_off i hi hir j' hj'
  · intro i hi
    rw [List.length_set] at hi
    rcases eq_or_ne i r with rfl | hir
    · rw [getD_set_self _ _ _ _ hd.hr, List.length_set]
      exact Or.inr ⟨by omega, by exact_mod_cast hj⟩
    · rw [getD_set_other _ _ _ _ _ (Ne.symm hir), List.length_set]
      exact hd.rowOK i hi
  · intro j' hj'
    rw [List.length_set] at hj'
    rcases eq_or_ne j' j with rfl | hjj
    · rw [getD_set_self _ _ _ _ hj, List.length_set]
      exact Or.inr ⟨by omega, by exact_mod_cast hd.hr⟩
    · rw [getD_set_other _ _ _ _ _ (Ne.symm hjj), List.length_set]
      exact hd.colOK j' hj'

/-- Assigning the dangling row `r` to a column `j` occupied by `r'` moves
the dangling row to `r'`. -/
theorem dangle_assign_occ (Z inv : List Int) (r j r' : Nat)
    (hd : Dangle Z inv r) (hj : j < inv.length)
    (hocc : inv.getD j (-1) = (r' : Int)) (hrr' : r' ≠ r)
    (hr'len : r' < Z.length) :
    Dangle (Z.set r (j : Int)) (inv.set j (r : Int)) r' := by
  have hZr' : Z.getD r' (-1) = (j : Int) :=
    (hd.iff_off r' hr'len hrr' j hj).mpr hocc
  constructor
  · intro i hi hir' j' hj'
    rw [List.length_set] at hi hj'
    rcases eq_or_ne i r with rfl | hir
    · rcases eq_or_ne j' j with rfl | hjj
      · rw [getD_set_self _ _ _ _ hd.hr, getD_set_self _ _ _ _ hj]
        simp
      · rw [getD_set_self _ _ _ _ hd.hr,
          getD_set_other _ _ _ _ _ (Ne.symm hjj)]
        constructor
        · intro h
          have hjj2 : j = j' := by exact_mod_cast h
          exact absurd hjj2 (Ne.symm hjj)
        · intro h
          exact absurd h (hd.no_point j' hj')
    · rcases eq_or_ne j' j with rfl | hjj
      · rw [getD_set_other _ _ _ _ _ (Ne.symm hir),
          getD_set_self _ _ _ _ hj]
        constructor
        · intro h
          have h2 := (hd.iff_off i hi hir j' hj').mp h
          rw [hocc] at h2
          have h3 : r' = i := by exact_mod_cast h2
          exact absurd h3.symm hir'
        · intro h
          have h2 : r = i := by exact_mod_cast h
          exact absurd h2.symm hir
      · rw [getD_set_other _ _ _ _ _ (Ne.symm hir),
          getD_set_other _ _ _ _ _ (Ne.symm hjj)]
        exact hd.iff_off i hi hir j' hj'
  · intro j' hj'
    rw [List.length_set] at hj'
    rcases eq_or_ne j' j with rfl | hjj
    · rw [getD_set_self _ _ _ _ hj]
      intro h
      have h2 : r = r' := by exact_mod_cast h
      exact hrr' h2.symm
    · rw [getD_set_other _ _ _ _ _ (Ne.symm hjj)]
      intro h
      have hZ2 : Z.getD r' (-1) = (j' : Int) :=
        (hd.iff_off r' hr'len hrr' j' hj').mpr h
      rw [hZr'] at hZ2
      have h3 : j = j' := by exact_mod_cast hZ2
      exact absurd h3 (Ne.symm hjj)
  · intro i hi
    rw [List.length_set] at hi
    rcases eq_or_ne i r with rfl | hir
    · rw [getD_set_self _ _ _ _ hd.hr, List.length_set]
      exact Or.inr ⟨by omega, by exact_mod_cast hj⟩
    · rw [getD_set_other _ _ _ _ _ (Ne.symm hir), List.length_set]
      exact hd.rowOK i hi
  · intro j' hj'
    rw [List.length_set] at hj'
    rcases eq_or_ne j' j with rfl | hjj
    · rw [getD_set_self _ _ _ _ hj, List.length_set]
      exact Or.inr ⟨by omega, by exact_mod_cast hd.hr⟩
    · rw [getD_set_other _ _ _ _ _ (Ne.symm hjj), List.length_set]
      exact hd.colOK j' hj'
  · rw [List.length_set]
    exact hr'len

/-- Flipping a structurally valid augmenting path out of a dangling state
restores the full matching invariant; rows other than the dangling one that
were unmatched stay unmatched. -/
theorem applyPath_good :
    ∀ (path : List (Nat × Nat)) (Z inv : List Int) (r : Nat) (a : Int),
    Dangle Z inv r → Z.getD r (-1) = a →
    (∀ e ∈ path, ((e.2 : Nat) : Int) ≠ a) → IsAug inv r path →
    MatchInv (applyPath (Z, inv) path).1 (applyPath (Z, inv) path).2 ∧
    (applyPath (Z, inv) path).1.length = Z.length ∧
    (applyPath (Z, inv) path).2.length = inv.length ∧
    (∀ rr, rr < Z.length → rr ≠ r → Z.getD rr (-1) = -1 →
      (applyPath (Z, inv) path).1.getD rr (-1) = -1) := by
  intro path
  induction path with
  | nil =>
    intro Z inv r a _ _ _ haug
    cases haug
  | cons p rest ih =>
    intro Z inv r a hd hZr hav haug
    obtain ⟨rh, j⟩ := p
    cases haug with
    | single hj hfree =>
      have havp : ((j : Nat) : Int) ≠ a := hav (r, j) (List.mem_cons_self _ _)
      have hne : ¬Z.getD r (-1) = ((j : Nat) : Int) := by
        intro h
        rw [h] at hZr
        exact havp hZr
      have happ : applyPath (Z, inv) [(r, j)] =
          (Z.set r (j : Int), inv.set j (r : Int)) := by
        simp only [applyPath, List.foldl_cons, List.foldl_nil, flipEdge]
        rw [if_neg hne]
      rw [happ]
      refine ⟨dangle_assign_free Z inv r j hd hj hfree, by simp, by simp, ?_⟩
      intro rr hrr hrrr hZrr
      show (Z.set r (j : Int)).getD rr (-1) = -1
      rw [getD_set_other _ _ _ _ _ (Ne.symm hrrr)]
      exact hZrr
    | cons hj hocc hdist htail =>
      rename_i r'
      have havp : ((j : Nat) : Int) ≠ a := hav (r, j) (List.mem_cons_self _ _)
      have hne : ¬Z.getD r (-1) = ((j : Nat) : Int) := by
        intro h
        rw [h] at hZr
        exact havp hZr
      have happ : applyPath (Z, inv) ((r, j) :: rest) =
          applyPath (Z.set r (j : Int), inv.set j (r : Int)) rest := by
        simp only [applyPath, List.foldl_cons, flipEdge]
        rw [if_neg hne]
      have hrr' : r' ≠ r := by
        intro h
        rw [h] at hocc
        exact hd.no_point j hj hocc
      have hr'len : r' < Z.length := by
        rcases hd.colOK j hj with h | h
        · rw [hocc] at h
          omega
        · rw [hocc] at h
          exact_mod_cast h.2
      have hZr' : Z.getD r' (-1) = (j : Int) :=
        (hd.iff_off r' hr'len hrr' j hj).mpr hocc
      have hd' := dangle_assign_occ Z inv r j r' hd hj hocc hrr' hr'len
      have hZ1r' : (Z.set r (j : Int)).getD r' (-1) = (j : Int) := by
        rw [getD_set_other _ _ _ _ _ (Ne.symm hrr')]
        exact hZr'
      have hav' : ∀ e ∈ rest, ((e.2 : Nat) : Int) ≠ ((j : Nat) : Int) := by
        intro e he h
        exact hdist e he (by exact_mod_cast h)
      have htail' : IsAug (inv.set j (r : Int)) r' rest := by
        apply isAug_congr inv _ r' rest (by rw [List.length_set])
        · intro e he
          exact getD_set_other _ _ _ _ _ (fun h => hdist e he h.symm)
        · exact htail
      obtain ⟨hm, hl1, hl2, hpres⟩ :=
        ih (Z.set r (j : Int)) (inv.set j (r : Int)) r' ((j : Nat) : Int)
          hd' hZ1r' hav' htail'
      rw [happ]
      refine ⟨hm, by rw [hl1]; simp, by rw [hl2]; simp, ?_⟩
      intro rr hrr hrrr hZrr
      have hrrr' : rr ≠ r' := by
        intro h
        rw [h, hZr'] at hZrr
        omega
      apply hpres rr (by rw [List.length_set]; exact hrr) hrrr'
      rw [getD_set_other _ _ _ _ _ (Ne.symm hrrr)]
      exact hZrr

section SearchLemmas

variable (cm : List (List ℚ)) (N M PADM : Nat) (pad : ℚ) (inv : List Int)
variable (u v : List ℚ)

/-- The visited-column set only grows during a scan. -/
theorem scanCols_T_sub (f : Nat → List Nat → List Nat → SearchRes)
    (hf : ∀ r' S' T', T' ⊆ (f r' S' T').2.2.2) (r : Nat) :
    ∀ (cols S T : List Nat) (path : List (Nat × Nat)),
      T ⊆ (scanCols cm N M pad inv u v f r S T path cols).2.2.2 := by
  intro cols
  induction cols with
  | nil =>
    intro S T path
    simp only [scanCols]
    exact fun x hx => hx
  | cons j rest ih =>
    intro S T path
    simp only [scanCols]
    by_cases hskip : EPS < |reducedCost cm u v r j N M pad| ∨ j ∈ T
    · rw [if_pos hskip]
      exact ih S T path
    · rw [if_neg hskip]
      by_cases hfree : inv.getD j (-1) = -1
      · rw [if_pos hfree]
        exact fun x hx => hx
      · rw [if_neg hfree]
        by_cases hcyc : memRow (inv.getD j (-1)) S = true
        · rw [if_pos hcyc]
          exact fun x hx => hx
        · rw [if_neg hcyc]
          by_cases hfound : (f (inv.getD j (-1)).toNat
              (S.insert (inv.getD j (-1)).toNat) (T.insert j)).2.1 = true
          · rw [if_pos hfound]
            exact (List.subset_insert j T).trans (hf _ _ _)
          · rw [if_neg hfound]
            exact ((List.subset_insert j T).trans (hf _ _ _)).trans
              (ih _ _ _)

/-- The visited-column set only grows during a search. -/
theorem searchAug_T_sub :
    ∀ (fuel r : Nat) (S T : List Nat),
      T ⊆ (searchAugPath cm N M PADM pad inv u v fuel r S T).2.2.2 := by
  intro fuel
  induction fuel with
  | zero =>
    intro r S T
    simp only [searchAugPath]
    exact fun x hx => hx
  | succ fuel ih =>
    intro r S T
    simp only [searchAugPath]
    exact scanCols_T_sub cm N M pad inv u v _ (fun r' S' T' => ih r' S' T')
      r _ S T []

/-- A successful scan returns a structurally valid alternating path none of
whose columns was previously visited. -/
theorem scanCols_sound
    (hok : ∀ j, j < inv.length →
      inv.getD j (-1) = -1 ∨ 0 ≤ inv.getD j (-1))
    (hlen : inv.length = PADM)
    (f : Nat → List Nat → List Nat → SearchRes)
    (hfsub : ∀ r' S' T', T' ⊆ (f r' S' T').2.2.2)
    (hfs : ∀ r' S' T', (f r' S' T').2.1 = true →
      IsAug inv r' (f r' S' T').1 ∧ ∀ e ∈ (f r' S' T').1, e.2 ∉ T')
    (r : Nat) :
    ∀ (cols S T : List Nat) (path : List (Nat × Nat)),
      (∀ c ∈ cols, c < PADM) →
      (scanCols cm N M pad inv u v f r S T path cols).2.1 = true →
      IsAug inv r (scanCols cm N M pad inv u v f r S T path cols).1 ∧
      ∀ e ∈ (scanCols cm N M pad inv u v f r S T path cols).1,
        e.2 ∉ T := by
  intro cols
  induction cols with
  | nil =>
    intro S T path _ h
    simp [scanCols] at h
  | cons j rest ih =>
    intro S T path hcols h
    simp only [scanCols] at h ⊢
    by_cases hskip : EPS < |reducedCost cm u v r j N M pad| ∨ j ∈ T
    · rw [if_pos hskip] at h ⊢
      exact ih S T path (fun c hc => hcols c (List.mem_cons_of_mem _ hc)) h
    · rw [if_neg hskip] at h ⊢
      have hjT : j ∉ T := fun hh => hskip (Or.inr hh)
      have hjPadm : j < PADM := hcols j (List.mem_cons_self _ _)
      have hjlen : j < inv.length := by rw [hlen]; exact hjPadm
      by_cases hfree : inv.getD j (-1) = -1
      · rw [if_pos hfree] at h ⊢
        refine ⟨IsAug.single hjlen hfree, ?_⟩
        intro e he
        have he' : e = (r, j) := by simpa using he
        rw [he']
        exact hjT
      · rw [if_neg hfree] at h ⊢
        by_cases hcyc : memRow (inv.getD j (-1)) S = true
        · rw [if_pos hcyc] at h
          simp at h
        · rw [if_neg hcyc] at h ⊢
          have h0 : 0 ≤ inv.getD j (-1) := (hok j hjlen).resolve_left hfree
          have hocc : inv.getD j (-1) = (((inv.getD j (-1)).toNat : Nat) : Int) :=
            (Int.toNat_of_nonneg h0).symm
          by_cases hfound : (f (inv.getD j (-1)).toNat
              (S.insert (inv.getD j (-1)).toNat) (T.insert j)).2.1 = true
          · rw [if_pos hfound] at h ⊢
            obtain ⟨haug, hT⟩ := hfs _ _ _ hfound
            constructor
            · refine IsAug.cons hjlen hocc ?_ haug
              intro e he hh
              exact hT e he (List.mem_insert_iff.mpr (Or.inl hh))
            · intro e he
              rcases List.mem_cons.mp he with rfl | he'
              · exact hjT
              · exact fun hh =>
                  hT e he' (List.mem_insert_iff.mpr (Or.inr hh))
          · rw [if_neg hfound] at h ⊢
            obtain ⟨haug, hT⟩ := ih _ _ _
              (fun c hc => hcols c (List.mem_cons_of_mem _ hc)) h
            refine ⟨haug, ?_⟩
            intro e he hh
            have hsub : T ⊆ (f (inv.getD j (-1)).toNat
                (S.insert (inv.getD j (-1)).toNat) (T.insert j)).2.2.2 :=
              (List.subset_insert j T).trans (hfsub _ _ _)
            exact hT e he (hsub hh)

/-- A successful search returns a structurally valid alternating path none
of whose columns was previously visited. -/
theorem searchAug_sound
    (hok : ∀ j, j < inv.length →
      inv.getD j (-1) = -1 ∨ 0 ≤ inv.getD j (-1))
    (hlen : inv.length = PADM) :
    ∀ (fuel r : Nat) (S T : List Nat),
      (searchAugPath cm N M PADM pad inv u v fuel r S T).2.1 = true →
      IsAug inv r (searchAugPath cm N M PADM pad inv u v fuel r S T).1 ∧
      ∀ e ∈ (searchAugPath cm N M PADM pad inv u v fuel r S T).1,
        e.2 ∉ T := by
  intro fuel
  induction fuel with
  | zero =>
    intro r S T h
    simp [searchAugPath] at h
  | succ fuel ih =>
    intro r S T h
    simp only [searchAugPath] at h ⊢
    exact scanCols_sound cm N M PADM pad inv u v hok hlen _
      (fun r' S' T' => searchAug_T_sub cm N M PADM pad inv u v fuel r' S' T')
      (fun r' S' T' => ih r' S' T') r _ S T []
      (fun c hc => List.mem_range.mp hc) h

end SearchLemmas

/-! ## The solver loop preserves the matching invariant -/

/-- Invariant carried through the row loop: `Z` and `inv` form a partial
matching of the padded square and every row not yet processed is
unmatched. -/
structure LoopInv (PADN PADM : Nat) (st : MState) (i : Nat) : Prop where
  minv : MatchInv st.Z st.inv
  zlen : st.Z.length = PADN
  ilen : st.inv.length = PADM
  unmatched : ∀ r, i ≤ r → r < PADN → st.Z.getD r (-1) = -1

theorem LoopInv.mono {PADN PADM : Nat} {st : MState} {i : Nat}
    (h : LoopInv PADN PADM st i) : LoopInv PADN PADM st (i + 1) :=
  ⟨h.minv, h.zlen, h.ilen,
    fun r hr hr2 => h.unmatched r (by omega) hr2⟩

/-- One row's retry loop takes the invariant from `i` to `i + 1`. -/
theorem rowStep_inv (cm : List (List ℚ)) (N M PADN PADM : Nat) (pad : ℚ)
    (i : Nat) (hi : i < PADN) :
    ∀ (fuel : Nat) (st : MState), LoopInv PADN PADM st i →
      LoopInv PADN PADM (rowStep cm N M PADN PADM pad i fuel st) (i + 1) := by
  intro fuel
  induction fuel with
  | zero =>
    intro st hinv
    exact hinv.mono
  | succ fuel ih =>
    intro st hinv
    simp only [rowStep]
    by_cases hfound : (searchAugPath cm N M PADM pad st.inv st.u st.v
        (PADN + 1) i [i] []).2.1 = true
    · rw [if_pos hfound]
      have hok : ∀ j, j < st.inv.length →
          st.inv.getD j (-1) = -1 ∨ 0 ≤ st.inv.getD j (-1) := by
        intro j hj
        rcases hinv.minv.colOK j hj with h | h
        · exact Or.inl h
        · exact Or.inr h.1
      obtain ⟨haug, _⟩ := searchAug_sound cm N M PADM pad st.inv st.u st.v
        hok hinv.ilen (PADN + 1) i [i] [] hfound
      have hiZ : i < st.Z.length := by rw [hinv.zlen]; exact hi
      have hZi : st.Z.getD i (-1) = -1 :=
        hinv.unmatched i (le_refl i) hi
      have hd : Dangle st.Z st.inv i := by
        constructor
        · exact fun i' hi' _ j hj => hinv.minv.iff_all i' hi' j hj
        · intro j hj h
          have := (hinv.minv.iff_all i hiZ j hj).mpr h
          rw [hZi] at this
          omega
        · exact hinv.minv.rowOK
        · exact hinv.minv.colOK
        · exact hiZ
      have hav : ∀ e ∈ (searchAugPath cm N M PADM pad st.inv st.u st.v
          (PADN + 1) i [i] []).1, ((e.2 : Nat) : Int) ≠ (-1 : Int) := by
        intro e _ h
        omega
      obtain ⟨hm, hl1, hl2, hpres⟩ :=
        applyPath_good _ st.Z st.inv i (-1) hd hZi hav haug
      refine ⟨hm, hl1.trans hinv.zlen, hl2.trans hinv.ilen, ?_⟩
      intro r hr hr2
      exact hpres r (by rw [hinv.zlen]; exact hr2) (by omega)
        (hinv.unmatched r (by omega) hr2)
    · rw [if_neg hfound]
      by_cases hdel : |deltaCalc cm st.u st.v N M PADM pad
          (searchAugPath cm N M PADM pad st.inv st.u st.v
            (PADN + 1) i [i] []).2.2.1
          (searchAugPath cm N M PADM pad st.inv st.u st.v
            (PADN + 1) i [i] []).2.2.2| < EPS
      · rw [if_pos hdel]
        exact hinv.mono
      · rw [if_neg hdel]
        exact ih _ ⟨hinv.minv, hinv.zlen, hinv.ilen, hinv.unmatched⟩

/-- Folding the row loop over a contiguous range of rows carries the
invariant across the whole range. -/
theorem foldl_rowStep_inv (cm : List (List ℚ)) (N M PADN PADM : Nat)
    (pad : ℚ) :
    ∀ (cnt istart : Nat) (st : MState), istart + cnt ≤ PADN →
      LoopInv PADN PADM st istart →
      LoopInv PADN PADM
        ((List.range' istart cnt).foldl
          (fun s ir => rowStep cm N M PADN PADM pad ir (whileFuel PADN) s) st)
        (istart + cnt) := by
  intro cnt
  induction cnt with
  | zero =>
    intro istart st _ hinv
    simpa using hinv
  | succ cnt ih =>
    intro istart st hle hinv
    rw [List.range'_succ, List.foldl_cons]
    have h1 := rowStep_inv cm N M PADN PADM pad istart (by omega)
      (whileFuel PADN) st hinv
    have h2 := ih (istart + 1) _ (by omega) h1
    have harith : istart + (cnt + 1) = (istart + 1) + cnt := by omega
    rw [harith]
    exact h2

/-- The final state of the solver loop is a valid partial matching of the
padded square. -/
theorem munkresCore_inv (cm : List (List ℚ)) (pad : ℚ) :
    MatchInv (munkresCore cm pad).Z (munkresCore cm pad).inv ∧
    (munkresCore cm pad).Z.length = max cm.length (cm.headD []).length ∧
    (munkresCore cm pad).inv.length = max cm.length (cm.headD []).length := by
  have h0 : LoopInv (max cm.length (cm.headD []).length)
      (max cm.length (cm.headD []).length)
      ⟨List.replicate (max cm.length (cm.headD []).length) (-1),
        List.replicate (max cm.length (cm.headD []).length) (-1),
        initU cm cm.length (cm.headD []).length
          (max cm.length (cm.headD []).length)
          (max cm.length (cm.headD []).length) pad,
        initV cm
          (initU cm cm.length (cm.headD []).length
            (max cm.length (cm.headD []).length)
            (max cm.length (cm.headD []).length) pad)
          cm.length (cm.headD []).length
          (max cm.length (cm.headD []).length)
          (max cm.length (cm.headD []).length) pad⟩ 0 := by
    constructor
    · constructor
      · intro i hi j hj
        rw [getD_replicate_sentinel, getD_replicate_sentinel]
        constructor
        · intro h
          omega
        · intro h
          omega
      · intro i _
        rw [getD_replicate_sentinel]
        exact Or.inl rfl
      · intro j _
        rw [getD_replicate_sentinel]
        exact Or.inl rfl
    · exact List.length_replicate _ _
    · exact List.length_replicate _ _
    · intro r _ _
      exact getD_replicate_sentinel _ _
  have hcore : munkresCore cm pad =
      (List.range (max cm.length (cm.headD []).length)).foldl
        (fun s ir => rowStep cm cm.length (cm.headD []).length
          (max cm.length (cm.headD []).length)
          (max cm.length (cm.headD []).length) pad ir
          (whileFuel (max cm.length (cm.headD []).length)) s)
        ⟨List.replicate (max cm.length (cm.headD []).length) (-1),
          List.replicate (max cm.length (cm.headD []).length) (-1),
          initU cm cm.length (cm.headD []).length
            (max cm.length (cm.headD []).length)
            (max cm.length (cm.headD []).length) pad,
          initV cm
            (initU cm cm.length (cm.headD []).length
              (max cm.length (cm.headD []).length)
              (max cm.length (cm.headD []).length) pad)
            cm.length (cm.headD []).length
            (max cm.length (cm.headD []).length)
            (max cm.length (cm.headD []).length) pad⟩ := rfl
  rw [hcore, List.range_eq_range']
  have := foldl_rowStep_inv cm cm.length (cm.headD []).length
    (max cm.length (cm.headD []).length)
    (max cm.length (cm.headD []).length) pad
    (max cm.length (cm.headD []).length) 0 _ (by omega) h0
  simp only [Nat.zero_add] at this
  exact ⟨this.minv, this.zlen, this.ilen⟩

/-! ## Claim theorems -/

/-- C1: for every cost matrix accepted by the solver (through the general
path, i.e. other than the dedicated 1×1 early return), the returned
`is_optimal` flag is `true` iff the complementary-slackness certificate
holds at return time: every matched edge of the padded assignment has
reduced cost within ε of 0, and the sum of the potentials restricted to
matched rows/columns equals the total cost of the matching (padded cells
contributing the pad cost) within ε. -/
theorem munkres_is_optimal_iff_certificate (cm : List (List ℚ)) (pad : ℚ)
    (a b : List Int) (flag : Bool)
    (hm : munkres cm pad = some (a, b, flag))
    (h11 : ¬(cm.length = 1 ∧ (cm.headD []).length = 1)) :
    (flag = true ↔
      csCertificate cm (munkresCore cm pad).Z (munkresCore cm pad).u
        (munkresCore cm pad).v cm.length (cm.headD []).length pad) := by
  unfold munkres at hm
  by_cases h1 : cm.length = 0
  · rw [if_pos h1] at hm
    exact absurd hm (by simp)
  rw [if_neg h1] at hm
  by_cases h2 : (cm.headD []).length = 0
  · rw [if_pos h2] at hm
    exact absurd hm (by simp)
  rw [if_neg h2, if_neg h11, Option.some.injEq, Prod.mk.injEq,
    Prod.mk.injEq] at hm
  rw [← hm.2.2]
  exact optimalityCheck_iff cm (munkresCore cm pad).Z
    (munkresCore cm pad).u (munkresCore cm pad).v cm.length
    (cm.headD []).length pad

theorem munkres_is_optimal_iff_certificate_witness :
    (true = true ↔
      csCertificate [[1, 2], [3, 4]] (munkresCore [[1, 2], [3, 4]] 0).Z
        (munkresCore [[1, 2], [3, 4]] 0).u (munkresCore [[1, 2], [3, 4]] 0).v
        2 2 0) :=
  munkres_is_optimal_iff_certificate [[1, 2], [3, 4]] 0 [1, 0] [1, 0] true
    (by decide) (by decide)

/-- C2: on the 5×5 instance of the test suite the solver returns the
assignment `[1, 0, 4, 2, 3]` with `is_optimal = true` (and inversion
`[1, 0, 3, 4, 2]`). -/
theorem munkres_square5_case :
    munkres [[10, 5, 13, 15, 16], [3, 9, 18, 13, 6], [10, 7, 2, 2, 2],
        [7, 11, 9, 7, 12], [7, 9, 10, 4, 12]] 0 =
      some ([1, 0, 4, 2, 3], [1, 0, 3, 4, 2], true) := by
  decide

/-- C3 counterexample: a ragged matrix whose second row is longer than the
first is accepted and solved (the extra entry is silently ignored), so the
claimed fail-fast on every non-rectangular input is false. -/
theorem munkres_ragged_accepted :
    munkres [[1], [2, 3]] 0 = some ([0, -1], [0], true) := by
  decide

/-- C3 amended: the assertions reject an empty matrix and an empty first
row, but rectangularity is not validated — a matrix whose later rows are
longer than the first passes the precondition checks and is silently
solved using only the first row's length `M` of columns: the ragged
`[[1], [2, 3]]` produces exactly the result of the rectangular
`[[1], [2]]`, the extra entry never being read. -/
theorem munkres_precondition_checks (pad : ℚ) (rows : List (List ℚ)) :
    munkres [] pad = none ∧
    munkres ([] :: rows) pad = none ∧
    munkres [[1], [2, 3]] 0 = some ([0, -1], [0], true) ∧
    munkres [[1], [2]] 0 = some ([0, -1], [0], true) := by
  refine ⟨rfl, rfl, by decide, by decide⟩

/-- C4 counterexample: at a state where candidate column 0 closes a cycle
(`inv[0] = 0 ∈ S`) while column 1 is free, the search returns immediately
with `([], false)`; the spec-modelled skipping scan instead continues and
succeeds with the edge `(0, 1)`. -/
theorem search_cycle_aborts_not_skips :
    searchAugPath [[0, 0], [0, 0]] 2 2 2 0 [0, -1] [0, 0] [0, 0] 3 0 [0] [] =
      ([], false, [0], []) ∧
    scanColsSkip [[0, 0], [0, 0]] 2 2 0 [0, -1] [0, 0] [0, 0]
      (searchAugPath [[0, 0], [0, 0]] 2 2 2 0 [0, -1] [0, 0] [0, 0] 2)
      0 [0] [] [] [0, 1] = ([(0, 1)], true, [0], []) := by
  constructor
  · decide
  · decide

/-- C4 amended: when the scan reaches a zero-reduced-cost candidate column
`j` whose occupying row is already in the visited set `S`, the whole scan
returns immediately with an empty path and failure, abandoning the
remaining candidate columns of that row. -/
theorem scan_cycle_returns_failure (cm : List (List ℚ)) (N M : Nat)
    (pad : ℚ) (inv : List Int) (u v : List ℚ)
    (f : Nat → List Nat → List Nat → SearchRes) (r : Nat)
    (S T : List Nat) (path : List (Nat × Nat)) (j : Nat) (rest : List Nat)
    (hcand : ¬(EPS < |reducedCost cm u v r j N M pad| ∨ j ∈ T))
    (hocc : ¬inv.getD j (-1) = -1)
    (hcyc : memRow (inv.getD j (-1)) S = true) :
    scanCols cm N M pad inv u v f r S T path (j :: rest) =
      ([], false, S, T) := by
  simp only [scanCols]
  rw [if_neg hcand, if_neg hocc, if_pos hcyc]

theorem scan_cycle_returns_failure_witness :
    scanCols [[0, 0], [0, 0]] 2 2 0 [0, -1] [0, 0] [0, 0]
      (searchAugPath [[0, 0], [0, 0]] 2 2 2 0 [0, -1] [0, 0] [0, 0] 2)
      0 [0] [] [] [0, 1] = ([], false, [0], []) :=
  scan_cycle_returns_failure [[0, 0], [0, 0]] 2 2 0 [0, -1] [0, 0] [0, 0]
    _ 0 [0] [] [] 0 [1] (by decide) (by decide) (by decide)

/-- C5: over the padded square of the real instance, dual feasibility
(`0 ≤ reduced cost` everywhere) holds after potential initialization, and
is preserved by every potential update the solver performs (raise `u` on
`S`, lower `v` on `T` by the computed `delta`). -/
theorem dual_feasibility_invariant (cm : List (List ℚ)) (pad : ℚ) :
    DualFeasible cm
      (initU cm cm.length (cm.headD []).length
        (max cm.length (cm.headD []).length)
        (max cm.length (cm.headD []).length) pad)
      (initV cm
        (initU cm cm.length (cm.headD []).length
          (max cm.length (cm.headD []).length)
          (max cm.length (cm.headD []).length) pad)
        cm.length (cm.headD []).length
        (max cm.length (cm.headD []).length)
        (max cm.length (cm.headD []).length) pad)
      cm.length (cm.headD []).length
      (max cm.length (cm.headD []).length)
      (max cm.length (cm.headD []).length) pad ∧
    (∀ (u v : List ℚ) (S T : List Nat),
      DualFeasible cm u v cm.length (cm.headD []).length
        (max cm.length (cm.headD []).length)
        (max cm.length (cm.headD []).length) pad →
      (∀ r ∈ S, r < max cm.length (cm.headD []).length) →
      u.length = max cm.length (cm.headD []).length →
      v.length = max cm.length (cm.headD []).length →
      DualFeasible cm
        (updateU u (deltaCalc cm u v cm.length (cm.headD []).length
          (max cm.length (cm.headD []).length) pad S T) S)
        (updateV v (deltaCalc cm u v cm.length (cm.headD []).length
          (max cm.length (cm.headD []).length) pad S T) T)
        cm.length (cm.headD []).length
        (max cm.length (cm.headD []).length)
        (max cm.length (cm.headD []).length) pad) :=
  ⟨init_feasible cm cm.length (cm.headD []).length _ _ pad,
    fun u v S T hf hS hu hv =>
      update_feasible cm u v cm.length (cm.headD []).length _ _ pad S T
        hf hS hu hv⟩

theorem dual_feasibility_invariant_witness :
    DualFeasible [[1, 2], [3, 4]]
      (updateU [0, 0] (deltaCalc [[1, 2], [3, 4]] [0, 0] [0, 0] 2 2 2 0
        [0] []) [0])
      (updateV [0, 0] (deltaCalc [[1, 2], [3, 4]] [0, 0] [0, 0] 2 2 2 0
        [0] []) [])
      2 2 2 2 0 :=
  (dual_feasibility_invariant [[1, 2], [3, 4]] 0).2 [0, 0] [0, 0] [0] []
    (by decide) (by decide) (by decide) (by decide)

/-- C6: the potential initializer computes exactly the spec's formulas
`u[i] = min over j of cost(i,j)` and `v[j] = min over i of
(cost(i,j) − u[i])` over the padded square, yields all reduced costs ≥ 0,
and leaves at least one zero-reduced-cost cell in every padded row. -/
theorem initializer_matches_spec (cm : List (List ℚ)) (pad : ℚ)
    (hN : 0 < cm.length) :
    initU cm cm.length (cm.headD []).length
        (max cm.length (cm.headD []).length)
        (max cm.length (cm.headD []).length) pad =
      specU cm cm.length (cm.headD []).length
        (max cm.length (cm.headD []).length)
        (max cm.length (cm.headD []).length) pad ∧
    initV cm
        (initU cm cm.length (cm.headD []).length
          (max cm.length (cm.headD []).length)
          (max cm.length (cm.headD []).length) pad)
        cm.length (cm.headD []).length
        (max cm.length (cm.headD []).length)
        (max cm.length (cm.headD []).length) pad =
      specV cm cm.length (cm.headD []).length
        (max cm.length (cm.headD []).length)
        (max cm.length (cm.headD []).length) pad ∧
    DualFeasible cm
      (initU cm cm.length (cm.headD []).length
        (max cm.length (cm.headD []).length)
        (max cm.length (cm.headD []).length) pad)
      (initV cm
        (initU cm cm.length (cm.headD []).length
          (max cm.length (cm.headD []).length)
          (max cm.length (cm.headD []).length) pad)
        cm.length (cm.headD []).length
        (max cm.length (cm.headD []).length)
        (max cm.length (cm.headD []).length) pad)
      cm.length (cm.headD []).length
      (max cm.length (cm.headD []).length)
      (max cm.length (cm.headD []).length) pad ∧
    (∀ i, i < max cm.length (cm.headD []).length →
      ∃ j, j < max cm.length (cm.headD []).length ∧
        reducedCost cm
          (initU cm cm.length (cm.headD []).length
            (max cm.length (cm.headD []).length)
            (max cm.length (cm.headD []).length) pad)
          (initV cm
            (initU cm cm.length (cm.headD []).length
              (max cm.length (cm.headD []).length)
              (max cm.length (cm.headD []).length) pad)
            cm.length (cm.headD []).length
            (max cm.length (cm.headD []).length)
            (max cm.length (cm.headD []).length) pad)
          i j cm.length (cm.headD []).length pad = 0) := by
  have hP : 0 < max cm.length (cm.headD []).length :=
    lt_of_lt_of_le hN (le_max_left _ _)
  exact ⟨initU_eq_specU cm cm.length (cm.headD []).length _ _ pad hP,
    initV_eq_specV cm cm.length (cm.headD []).length _ _ pad hP,
    init_feasible cm cm.length (cm.headD []).length _ _ pad,
    fun i hi => init_row_zero cm cm.length (cm.headD []).length _ _ pad
      hP i hi⟩

theorem initializer_matches_spec_witness :
    initU [[1, 2], [3, 4]] 2 2 2 2 0 = specU [[1, 2], [3, 4]] 2 2 2 2 0 :=
  (initializer_matches_spec [[1, 2], [3, 4]] 0 (by decide)).1

/-- C7: the returned assignment has length `N` with entries in
`{-1} ∪ {0..M-1}`, the returned inversion has length `M` with entries in
`{-1} ∪ {0..N-1}`, pairings into padding territory are reported as `-1`,
and the two vectors are mutually consistent:
`assignment[i] = j ≥ 0 ↔ inversion[j] = i`. -/
theorem munkres_output_matching (cm : List (List ℚ)) (pad : ℚ)
    (a b : List Int) (flag : Bool)
    (hm : munkres cm pad = some (a, b, flag)) :
    a.length = cm.length ∧
    b.length = (cm.headD []).length ∧
    (∀ i, i < cm.length → a.getD i (-1) = -1 ∨
      (0 ≤ a.getD i (-1) ∧
        a.getD i (-1) < (((cm.headD []).length : Nat) : Int))) ∧
    (∀ j, j < (cm.headD []).length → b.getD j (-1) = -1 ∨
      (0 ≤ b.getD j (-1) ∧ b.getD j (-1) < ((cm.length : Nat) : Int))) ∧
    (∀ i j, i < cm.length → j < (cm.headD []).length →
      (a.getD i (-1) = (j : Int) ↔ b.getD j (-1) = (i : Int))) := by
  unfold munkres at hm
  by_cases h1 : cm.length = 0
  · rw [if_pos h1] at hm
    exact absurd hm (by simp)
  rw [if_neg h1] at hm
  by_cases h2 : (cm.headD []).length = 0
  · rw [if_pos h2] at hm
    exact absurd hm (by simp)
  rw [if_neg h2] at hm
  by_cases h3 : cm.length = 1 ∧ (cm.headD []).length = 1
  · rw [if_pos h3] at hm
    rw [Option.some.injEq, Prod.mk.injEq, Prod.mk.injEq] at hm
    obtain ⟨ha, hb, -⟩ := hm
    subst ha
    subst hb
    refine ⟨by rw [h3.1]; rfl, by rw [h3.2]; rfl, ?_, ?_, ?_⟩
    · intro i hi
      have hi0 : i = 0 := by omega
      subst hi0
      exact Or.inr ⟨by decide, by rw [h3.2]; decide⟩
    · intro j hj
      have hj0 : j = 0 := by omega
      subst hj0
      exact Or.inr ⟨by decide, by rw [h3.1]; decide⟩
    · intro i j hi hj
      have hi0 : i = 0 := by omega
      have hj0 : j = 0 := by omega
      subst hi0
      subst hj0
      constructor
      · intro _
        rfl
      · intro _
        rfl
  rw [if_neg h3, Option.some.injEq, Prod.mk.injEq, Prod.mk.injEq] at hm
  obtain ⟨ha, hb, -⟩ := hm
  obtain ⟨minv, hzlen, hilen⟩ := munkresCore_inv cm pad
  have hNP : cm.length ≤ max cm.length (cm.headD []).length :=
    le_max_left _ _
  have hMP : (cm.headD []).length ≤ max cm.length (cm.headD []).length :=
    le_max_right _ _
  have htakeN : ((munkresCore cm pad).Z.take cm.length).length =
      cm.length := by
    rw [List.length_take, hzlen]
    omega
  have htakeM : ((munkresCore cm pad).inv.take (cm.headD []).length).length =
      (cm.headD []).length := by
    rw [List.length_take, hilen]
    omega
  have haget : ∀ i, i < cm.length → a.getD i (-1) =
      (if (munkresCore cm pad).Z.getD i (-1) <
          (((cm.headD []).length : Nat) : Int) then
        (munkresCore cm pad).Z.getD i (-1) else -1) := by
    intro i hi
    rw [← ha, getD_map_lt _ _ _ _ (-1) (by rw [htakeN]; exact hi),
      getD_take_lt _ _ _ _ hi]
  have hbget : ∀ j, j < (cm.headD []).length → b.getD j (-1) =
      (if (munkresCore cm pad).inv.getD j (-1) <
          ((cm.length : Nat) : Int) then
        (munkresCore cm pad).inv.getD j (-1) else -1) := by
    intro j hj
    rw [← hb, getD_map_lt _ _ _ _ (-1) (by rw [htakeM]; exact hj),
      getD_take_lt _ _ _ _ hj]
  refine ⟨by rw [← ha, List.length_map, htakeN],
    by rw [← hb, List.length_map, htakeM], ?_, ?_, ?_⟩
  · intro i hi
    rw [haget i hi]
    rcases minv.rowOK i (by rw [hzlen]; omega) with hz | hz
    · rw [hz, ite_self]
      exact Or.inl rfl
    · by_cases hzM : (munkresCore cm pad).Z.getD i (-1) <
          (((cm.headD []).length : Nat) : Int)
      · rw [if_pos hzM]
        exact Or.inr ⟨hz.1, hzM⟩
      · rw [if_neg hzM]
        exact Or.inl rfl
  · intro j hj
    rw [hbget j hj]
    rcases minv.colOK j (by rw [hilen]; omega) with hz | hz
    · rw [hz, ite_self]
      exact Or.inl rfl
    · by_cases hzN : (munkresCore cm pad).inv.getD j (-1) <
          ((cm.length : Nat) : Int)
      · rw [if_pos hzN]
        exact Or.inr ⟨hz.1, hzN⟩
      · rw [if_neg hzN]
        exact Or.inl rfl
  · intro i j hi hj
    rw [haget i hi, hbget j hj]
    have hiZ : i < (munkresCore cm pad).Z.length := by
      rw [hzlen]
      omega
    have hjI : j < (munkresCore cm pad).inv.length := by
      rw [hilen]
      omega
    constructor
    · intro h
      by_cases hzM : (munkresCore cm pad).Z.getD i (-1) <
          (((cm.headD []).length : Nat) : Int)
      · rw [if_pos hzM] at h
        have hinvj : (munkresCore cm pad).inv.getD j (-1) = (i : Int) :=
          (minv.iff_all i hiZ j hjI).mp h
        rw [hinvj, if_pos (by exact_mod_cast hi)]
      · rw [if_neg hzM] at h
        omega
    · intro h
      by_cases hzN : (munkresCore cm pad).inv.getD j (-1) <
          ((cm.length : Nat) : Int)
      · rw [if_pos hzN] at h
        have hZij : (munkresCore cm pad).Z.getD i (-1) = (j : Int) :=
          (minv.iff_all i hiZ j hjI).mpr h
        rw [hZij, if_pos (by exact_mod_cast hj)]
      · rw [if_neg hzN] at h
        omega

theorem munkres_output_matching_witness :
    (([1, 0] : List Int).length = ([[1, 2], [3, 4]] : List (List ℚ)).length) ∧
    (([1, 0] : List Int).length =
      (([[1, 2], [3, 4]] : List (List ℚ)).headD []).length) ∧
    (∀ i, i < ([[1, 2], [3, 4]] : List (List ℚ)).length →
      ([1, 0] : List Int).getD i (-1) = -1 ∨
      (0 ≤ ([1, 0] : List Int).getD i (-1) ∧
        ([1, 0] : List Int).getD i (-1) <
          (((([[1, 2], [3, 4]] : List (List ℚ)).headD []).length : Nat) :
            Int))) ∧
    (∀ j, j < (([[1, 2], [3, 4]] : List (List ℚ)).headD []).length →
      ([1, 0] : List Int).getD j (-1) = -1 ∨
      (0 ≤ ([1, 0] : List Int).getD j (-1) ∧
        ([1, 0] : List Int).getD j (-1) <
          ((([[1, 2], [3, 4]] : List (List ℚ)).length : Nat) : Int))) ∧
    (∀ i j, i < ([[1, 2], [3, 4]] : List (List ℚ)).length →
      j < (([[1, 2], [3, 4]] : List (List ℚ)).headD []).length →
      (([1, 0] : List Int).getD i (-1) = (j : Int) ↔
        ([1, 0] : List Int).getD j (-1) = (i : Int))) :=
  munkres_output_matching [[1, 2], [3, 4]] 0 [1, 0] [1, 0] true (by decide)

/-- C8: on the rectangular instance built from rows `[1,3,6,8]` and columns
`[2,4]` under absolute-difference cost, every returned row entry is a real
column or `-1`, exactly `min(N, M) = 2` rows are assigned, and
`is_optimal = true`. -/
theorem munkres_rect_case :
    make_cost_matrix ([1, 3, 6, 8] : List ℚ) ([2, 4] : List ℚ)
        (fun a b _ _ => |a - b|) = [[1, 3], [1, 1], [4, 2], [6, 4]] ∧
    munkres [[1, 3], [1, 1], [4, 2], [6, 4]] 0 =
      some ([0, 1, -1, -1], [0, 1], true) ∧
    (∀ x ∈ ([0, 1, -1, -1] : List Int), x = -1 ∨ (0 ≤ x ∧ x < 2)) ∧
    (([0, 1, -1, -1] : List Int).filter (fun x => decide (x ≠ -1))).length =
      min 4 2 := by
  refine ⟨by decide, by decide, by decide, by decide⟩

/-- C9: whenever a row's search fails, the computed `delta` is ≥ 0 under
dual feasibility (for finite inputs); and if `|delta| < ε` the retry loop
for that row stops immediately, returning the current state unchanged
instead of looping or raising. -/
theorem delta_nonneg_and_defensive_abort :
    (∀ (cm : List (List ℚ)) (u v : List ℚ) (N M PADN PADM : Nat)
      (pad : ℚ) (S T : List Nat),
      DualFeasible cm u v N M PADN PADM pad → (∀ r ∈ S, r < PADN) →
      0 ≤ deltaCalc cm u v N M PADM pad S T) ∧
    (∀ (cm : List (List ℚ)) (N M PADN PADM : Nat) (pad : ℚ)
      (i fuel : Nat) (st : MState),
      (searchAugPath cm N M PADM pad st.inv st.u st.v
        (PADN + 1) i [i] []).2.1 = false →
      |deltaCalc cm st.u st.v N M PADM pad
        (searchAugPath cm N M PADM pad st.inv st.u st.v
          (PADN + 1) i [i] []).2.2.1
        (searchAugPath cm N M PADM pad st.inv st.u st.v
          (PADN + 1) i [i] []).2.2.2| < EPS →
      rowStep cm N M PADN PADM pad i (fuel + 1) st = st) := by
  constructor
  · intro cm u v N M PADN PADM pad S T hf hS
    exact deltaCalc_nonneg cm u v N M PADN PADM pad S T hf hS
  · intro cm N M PADN PADM pad i fuel st hfail hdel
    simp only [rowStep]
    rw [if_neg (by simp [hfail]), if_pos hdel]

theorem delta_nonneg_and_defensive_abort_witness :
    0 ≤ deltaCalc [[1, 2], [3, 4]] [0, 0] [0, 0] 2 2 2 0 [0] [] ∧
    rowStep [[0, 0], [0, 0]] 2 2 2 2 0 0 5
      ⟨[-1, -1], [0, -1], [0, 0], [0, 0]⟩ =
      ⟨[-1, -1], [0, -1], [0, 0], [0, 0]⟩ :=
  ⟨(delta_nonneg_and_defensive_abort).1 [[1, 2], [3, 4]] [0, 0] [0, 0]
      2 2 2 2 0 [0] [] (by decide) (by decide),
    (delta_nonneg_and_defensive_abort).2 [[0, 0], [0, 0]] 2 2 2 2 0 0 4
      ⟨[-1, -1], [0, -1], [0, 0], [0, 0]⟩ (by decide) (by decide)⟩

/-- C10: every 1×1 cost matrix takes the dedicated early-return branch,
returning `([0], [0], true)` for every entry value and pad cost, without
ever consulting the optimality certifier. -/
theorem munkres_one_by_one (c pad : ℚ) :
    munkres [[c]] pad = some ([0], [0], true) := by
  simp [munkres]

end PyMunkres
